import Mathlib

/-!
# Verification of the `const-writer` crate

A shallow embedding of the `const-writer` Rust crate (src/lib.rs, src/slice.rs,
src/vec.rs): a byte-buffer writer whose remaining capacity `N` is threaded as a
const-generic parameter through a chain of write operations.

Modelling conventions:
* A byte is a `Nat` (in-range bytes are `< 256`; the encoders only produce such).
* Raw memory regions become `List Nat` with explicit state passing.
* `SliceWriterAdapter` holds `slice: &mut &mut [u8]` and a raw cursor `ptr`;
  we model the underlying fixed region `buf`, the offset `start` of the wrapped
  window inside it (the window `*slice` is `buf.drop start`), and the cursor
  offset `cursor` of `ptr` from the window start.
* `VecWriterAdapter` holds `vec: &mut Vec<u8>` and `ptr`; we model the vec's
  logical content at adapter creation plus the bytes written past the logical
  end into reserved capacity (not yet visible until `set_len` on drop).
* Panicking `assert!` calls become `Except String` with the assert's message.
* The const-generic arithmetic `{N - size_of::<T>()}`, which fails to compile
  when it underflows, is modelled by `constSub`.
-/

namespace ConstWriterModel

/-- Little-endian base-256 byte encoding of `v` in `w` bytes; models Rust's
`uN::to_le_bytes` (the value is reduced mod `2^(8w)` exactly as the fixed-width
integer type does). -/
def toLeBytes : Nat → Nat → List Nat
  | 0, _ => []
  | w + 1, v => v % 256 :: toLeBytes w (v / 256)

/-- Big-endian encoding; models Rust's `uN::to_be_bytes`. -/
def toBeBytes (w v : Nat) : List Nat :=
  (toLeBytes w v).reverse

/-- The two byte orderings offered by the `implement_write!` macro
(`to_le_bytes` / `to_be_bytes`). -/
inductive Endian where
  | le
  | be
deriving DecidableEq, Repr

/-- One primitive write instruction: a width in bytes, a byte ordering, and the
value (an `Int`, so that the two's-complement encoding of the signed
`write_iW_*` variants and the plain encoding of the unsigned `write_uW_*`
variants are both covered). -/
structure PrimWrite where
  width : Nat
  endian : Endian
  value : Int
deriving DecidableEq, Repr

/-- The byte representation a primitive write deposits: the value reduced to
`w` bytes (two's complement for negative values, exactly as Rust's fixed-width
integers represent them) in the declared byte ordering. -/
def encodePrim (p : PrimWrite) : List Nat :=
  let u := (p.value % ((2 : Int) ^ (8 * p.width))).toNat
  match p.endian with
  | .le => toLeBytes p.width u
  | .be => toBeBytes p.width u

/-- Concatenation of the byte representations of a list of primitive writes,
in call order. -/
def encodeAll (ps : List PrimWrite) : List Nat :=
  (ps.map encodePrim).flatten

/-- Total byte width of a list of primitive writes. -/
def sumWidths (ps : List PrimWrite) : Nat :=
  (ps.map PrimWrite.width).sum

/-- Overwrite the bytes of `l` starting at position `pos` with `v`; models
`ptr::copy_nonoverlapping(value.as_ptr(), ptr, N)` into a region whose base is
`l` (when `pos + v.length ≤ l.length`, i.e. in every defined-behaviour use). -/
def listWrite (l : List Nat) (pos : Nat) (v : List Nat) : List Nat :=
  l.take pos ++ v ++ l.drop (pos + v.length)

/-- Model of the Rust const-generic expression `{n - w}` on `usize`: constant
evaluation succeeds with the difference when `w ≤ n` and is a compile-time
error (underflow) otherwise. `none` = the program is rejected at build time. -/
def constSub (n w : Nat) : Option Nat :=
  if w ≤ n then some (n - w) else none

/-! ## `SliceWriterAdapter` (src/slice.rs, duplicated in src/lib.rs) -/

/-- State of `SliceWriterAdapter<'a, 'inner>`: `buf` is the full underlying
fixed region, `start` the offset of the wrapped window `*slice` inside it
(so `*slice = buf.drop start` and `slice.len() = buf.length - start`), and
`cursor` the offset of the raw write pointer `ptr` from the window start. -/
structure SliceWriterAdapter where
  buf : List Nat
  start : Nat
  cursor : Nat
deriving DecidableEq, Repr

namespace SliceWriterAdapter

/-- `slice.len()`: length of the wrapped window. -/
def sliceLen (a : SliceWriterAdapter) : Nat :=
  a.buf.length - a.start

/-- `SliceWriterAdapter::new::<N>`: asserts `slice.len() >= N` (panicking with
the requested vs. available counts otherwise) and records the data pointer;
the region is not touched. -/
def new (N : Nat) (buf : List Nat) (start : Nat) : Except String SliceWriterAdapter :=
  let len := buf.length - start
  if len ≥ N then
    .ok { buf := buf, start := start, cursor := 0 }
  else
    .error s!"slice too short: {len} < {N}"

/-- `ConstWriterAdapter::write` for slices: copy the bytes at the cursor and
advance the cursor; no bound check (the capacity proof lives in the handle). -/
def write (a : SliceWriterAdapter) (v : List Nat) : SliceWriterAdapter :=
  { a with
    buf := listWrite a.buf (a.start + a.cursor) v
    cursor := a.cursor + v.length }

/-- `ConstWriterAdapter::grow::<M>` for slices: `diff = ptr - slice.as_ptr()`,
assert `M <= slice.len() - diff` (panicking with the available vs. requested
counts otherwise); the region and cursor are untouched. -/
def grow (a : SliceWriterAdapter) (M : Nat) : Except String SliceWriterAdapter :=
  let rem := (a.buf.length - a.start) - a.cursor
  if M ≤ rem then .ok a
  else .error s!"remaining slice too short to grow: {rem} < {M}"

/-- `Drop for SliceWriterAdapter`: `*slice` is replaced by the slice starting
at `ptr` of length `slice.len() - diff`, i.e. the window is advanced by
`cursor` bytes; returns the (unchanged) underlying region together with the
new window start. -/
def release (a : SliceWriterAdapter) : List Nat × Nat :=
  (a.buf, a.start + a.cursor)

end SliceWriterAdapter

/-! ## `VecWriterAdapter` (src/vec.rs, duplicated in src/lib.rs) -/

/-- State of `VecWriterAdapter<'a>`: `content` is the vec's logical content
when the adapter was created (`vec.len()` bytes — writes do not change the
logical length until drop), `written` the bytes deposited past the logical end
into reserved capacity. The raw cursor `ptr` sits at offset
`content.length + written.length` from the vec's base. -/
structure VecWriterAdapter where
  content : List Nat
  written : List Nat
deriving DecidableEq, Repr

namespace VecWriterAdapter

/-- `VecWriterAdapter::from::<N>`: `vec.reserve(N)` (allocation only, no
logical effect) and the cursor is placed at the vec's current logical end. -/
def mkFrom (N : Nat) (vec : List Nat) : VecWriterAdapter :=
  let _ := N
  { content := vec, written := [] }

/-- `ConstWriterAdapter::write` for vecs: copy the bytes at the cursor into
reserved capacity and advance the cursor; no bound check. -/
def write (a : VecWriterAdapter) (v : List Nat) : VecWriterAdapter :=
  { a with written := a.written ++ v }

/-- `ConstWriterAdapter::grow::<M>` for vecs: `reserve(written_bytes + M)` and
recompute `ptr` from the (possibly relocated) base — the logical state is
unchanged and the operation cannot fail short of allocator exhaustion. -/
def grow (a : VecWriterAdapter) (M : Nat) : VecWriterAdapter :=
  let _ := M
  a

/-- `Drop for VecWriterAdapter`: `vec.set_len(ptr - base)` — exactly the bytes
up to the cursor become the vec's logical content. -/
def release (a : VecWriterAdapter) : List Nat :=
  a.content ++ a.written

end VecWriterAdapter

/-! ## `ConstWriter` and the generic write/convert machinery (src/lib.rs) -/

/-- The `ConstWriterAdapter` trait: unchecked raw append and a checked/
reserving capacity extension. -/
class ConstWriterAdapter (T : Type) where
  write : T → List Nat → T
  grow : T → Nat → Except String T

instance : ConstWriterAdapter SliceWriterAdapter where
  write := SliceWriterAdapter.write
  grow := SliceWriterAdapter.grow

instance : ConstWriterAdapter VecWriterAdapter where
  write := VecWriterAdapter.write
  grow := fun a M => .ok (a.grow M)

/-- `ConstWriter<T, N>`: an adapter paired with its remaining-capacity
parameter `N` (type-level in Rust, carried as data here). -/
structure ConstWriter (T : Type) where
  N : Nat
  writer_adapter : T
deriving Repr

namespace ConstWriter

variable {T : Type} [ConstWriterAdapter T]

/-- The body shared by every `implement_write!` method and `write_slice`:
delegate to the adapter's unchecked write and rebuild the handle at capacity
`N - bytes.length` (the const-generic result type; see `constSub` for the
build-time side of that subtraction). -/
def writeBytes (w : ConstWriter T) (bytes : List Nat) : ConstWriter T :=
  { N := w.N - bytes.length
    writer_adapter := ConstWriterAdapter.write w.writer_adapter bytes }

/-- A `write_<type>_<endianness>` call: encode the value and append it. -/
def writePrim (w : ConstWriter T) (p : PrimWrite) : ConstWriter T :=
  w.writeBytes (encodePrim p)

/-- `ConstWriter::remaining`: returns the capacity parameter `N`. -/
def remaining (w : ConstWriter T) : Nat :=
  w.N

/-- `ConstWriter::convert::<M>`: if `M ≤ N`, rebuild the handle at capacity
`M` with the adapter untouched; otherwise call the adapter's `grow`. -/
def convert (w : ConstWriter T) (M : Nat) : Except String (ConstWriter T) :=
  if M ≤ w.N then
    .ok { N := M, writer_adapter := w.writer_adapter }
  else
    (ConstWriterAdapter.grow w.writer_adapter M).map
      fun a => { N := M, writer_adapter := a }

/-- Chain a list of primitive writes through the handle, in call order. -/
def runWrites (w : ConstWriter T) : List PrimWrite → ConstWriter T
  | [] => w
  | p :: ps => runWrites (w.writePrim p) ps

end ConstWriter

/-- `<&mut [u8] as ConstWrite>::const_writer::<N>`: validate the window length
via `SliceWriterAdapter::new` and wrap the adapter at capacity `N`. -/
def sliceConstWriter (N : Nat) (buf : List Nat) (start : Nat) :
    Except String (ConstWriter SliceWriterAdapter) :=
  (SliceWriterAdapter.new N buf start).map
    fun a => { N := N, writer_adapter := a }

/-- `<Vec<u8> as ConstWrite>::const_writer::<N>`: reserve `N` bytes and wrap
the adapter at capacity `N`. -/
def vecConstWriter (N : Nat) (vec : List Nat) : ConstWriter VecWriterAdapter :=
  { N := N, writer_adapter := VecWriterAdapter.mkFrom N vec }

/-! ## Chains with `convert` boundaries -/

/-- One step of a writer chain: a primitive write or a `convert::<M>`. -/
inductive Step where
  | wr (p : PrimWrite)
  | conv (M : Nat)
deriving DecidableEq, Repr

/-- Run a chain of writes and converts through the handle. -/
def runSteps {T : Type} [ConstWriterAdapter T] (w : ConstWriter T) :
    List Step → Except String (ConstWriter T)
  | [] => .ok w
  | .wr p :: ss => runSteps (w.writePrim p) ss
  | .conv M :: ss => (w.convert M).bind fun w' => runSteps w' ss

/-- The write projection of a chain: the primitive writes, converts erased. -/
def writesOf : List Step → List PrimWrite
  | [] => []
  | .wr p :: ss => p :: writesOf ss
  | .conv _ :: ss => writesOf ss

/-- The chain is accepted by the type system: every write's width fits the
capacity parameter in force at that point (each `{N - w}` const-evaluates,
see `constSub`); a `convert::<M>` re-declares the capacity to `M`. -/
def wellTyped : Nat → List Step → Bool
  | _, [] => true
  | n, .wr p :: ss => p.width ≤ n && wellTyped (n - p.width) ss
  | _, .conv M :: ss => wellTyped M ss

/-! ## Basic facts about the encoders and `listWrite` -/

theorem toLeBytes_length (w : Nat) : ∀ v, (toLeBytes w v).length = w := by
  induction w with
  | zero => intro v; rfl
  | succ w ih => intro v; simp [toLeBytes, ih]

theorem encodePrim_length (p : PrimWrite) : (encodePrim p).length = p.width := by
  unfold encodePrim
  cases p.endian <;> simp [toBeBytes, toLeBytes_length]

theorem encodeAll_nil : encodeAll [] = [] := rfl

theorem encodeAll_cons (p : PrimWrite) (ps : List PrimWrite) :
    encodeAll (p :: ps) = encodePrim p ++ encodeAll ps := rfl

theorem sumWidths_nil : sumWidths [] = 0 := rfl

theorem sumWidths_cons (p : PrimWrite) (ps : List PrimWrite) :
    sumWidths (p :: ps) = p.width + sumWidths ps := by
  simp [sumWidths]

theorem encodeAll_length (ps : List PrimWrite) :
    (encodeAll ps).length = sumWidths ps := by
  induction ps with
  | nil => rfl
  | cons p ps ih => simp [encodeAll_cons, sumWidths_cons, encodePrim_length, ih]

theorem listWrite_nil (l : List Nat) (pos : Nat) : listWrite l pos [] = l := by
  simp [listWrite]

theorem listWrite_length (l v : List Nat) (pos : Nat) (h : pos + v.length ≤ l.length) :
    (listWrite l pos v).length = l.length := by
  simp [listWrite]
  omega

theorem listWrite_length_ge (l v : List Nat) (pos : Nat) (h : pos ≤ l.length) :
    pos + v.length ≤ (listWrite l pos v).length := by
  simp [listWrite]
  omega

theorem listWrite_take_out (l v : List Nat) (pos : Nat) (h : pos ≤ l.length) :
    (listWrite l pos v).take (pos + v.length) = l.take pos ++ v := by
  have hA : (l.take pos).length = pos := by
    simp [List.length_take]
    omega
  simp only [listWrite, List.append_assoc]
  rw [List.take_append_eq_append_take,
    List.take_of_length_le (by omega : (l.take pos).length ≤ pos + v.length), hA,
    Nat.add_sub_cancel_left, List.take_left]

theorem listWrite_drop_out (l v : List Nat) (pos k : Nat) (h : pos ≤ l.length)
    (hk : pos + v.length ≤ k) :
    (listWrite l pos v).drop k = l.drop k := by
  have hA : (l.take pos).length = pos := by
    simp [List.length_take]
    omega
  simp only [listWrite, List.append_assoc]
  rw [List.drop_append_eq_append_drop,
    List.drop_eq_nil_of_le (by omega : (l.take pos).length ≤ k), hA, List.nil_append,
    List.drop_append_eq_append_drop,
    List.drop_eq_nil_of_le (by omega : v.length ≤ k - pos), List.nil_append,
    List.drop_drop]
  have : pos + v.length + (k - pos - v.length) = k := by omega
  rw [this]

theorem listWrite_append (l : List Nat) (pos : Nat) (v1 v2 : List Nat)
    (h : pos ≤ l.length) :
    listWrite (listWrite l pos v1) (pos + v1.length) v2 = listWrite l pos (v1 ++ v2) := by
  have ht := listWrite_take_out l v1 pos h
  have hd := listWrite_drop_out l v1 pos (pos + v1.length + v2.length) h (by omega)
  calc listWrite (listWrite l pos v1) (pos + v1.length) v2
      = (listWrite l pos v1).take (pos + v1.length) ++ v2 ++
          (listWrite l pos v1).drop (pos + v1.length + v2.length) := rfl
    _ = (l.take pos ++ v1) ++ v2 ++ l.drop (pos + v1.length + v2.length) := by
        rw [ht, hd]
    _ = listWrite l pos (v1 ++ v2) := by
        simp [listWrite, List.append_assoc, Nat.add_assoc]

theorem listWrite_frame_take (l v : List Nat) (pos k : Nat) (hk : k ≤ pos)
    (h : pos ≤ l.length) :
    (listWrite l pos v).take k = l.take k := by
  have hA : (l.take pos).length = pos := by
    simp [List.length_take]
    omega
  simp only [listWrite, List.append_assoc]
  rw [List.take_append_eq_append_take, Nat.sub_eq_zero_of_le (by omega), List.take_zero,
    List.append_nil, List.take_take, Nat.min_eq_left hk]

theorem listWrite_frame_drop (l v : List Nat) (pos : Nat) (h : pos ≤ l.length) :
    (listWrite l pos v).drop (pos + v.length) = l.drop (pos + v.length) := by
  have hA : (l.take pos).length = pos := by
    simp [List.length_take]
    omega
  simp only [listWrite, List.append_assoc]
  rw [List.drop_append_eq_append_drop,
    List.drop_of_length_le (by omega : (l.take pos).length ≤ pos + v.length), hA]
  have h1 : pos + v.length - pos = v.length := by omega
  rw [h1, List.nil_append, List.drop_append_eq_append_drop,
    List.drop_of_length_le (le_refl v.length), Nat.sub_self, List.drop_zero, List.nil_append]

/-! ## Behaviour of write chains -/

theorem runWrites_N {T : Type} [ConstWriterAdapter T] (ps : List PrimWrite) :
    ∀ w : ConstWriter T, (w.runWrites ps).N = w.N - sumWidths ps := by
  induction ps with
  | nil => intro w; simp [ConstWriter.runWrites, sumWidths_nil]
  | cons p ps ih =>
      intro w
      simp only [ConstWriter.runWrites]
      rw [ih]
      simp [ConstWriter.writePrim, ConstWriter.writeBytes, encodePrim_length,
        sumWidths_cons, Nat.sub_sub]

theorem runWrites_vec (ps : List PrimWrite) :
    ∀ w : ConstWriter VecWriterAdapter,
      (w.runWrites ps).writer_adapter.content = w.writer_adapter.content ∧
      (w.runWrites ps).writer_adapter.written
        = w.writer_adapter.written ++ encodeAll ps := by
  induction ps with
  | nil => intro w; simp [ConstWriter.runWrites, encodeAll_nil]
  | cons p ps ih =>
      intro w
      simp only [ConstWriter.runWrites]
      refine ⟨((ih _).1.trans rfl), ((ih _).2.trans ?_)⟩
      simp [ConstWriter.writePrim, ConstWriter.writeBytes, ConstWriterAdapter.write,
        VecWriterAdapter.write, encodeAll_cons, List.append_assoc]

theorem runWrites_slice (ps : List PrimWrite) :
    ∀ w : ConstWriter SliceWriterAdapter,
      w.writer_adapter.start + w.writer_adapter.cursor ≤ w.writer_adapter.buf.length →
      (w.runWrites ps).writer_adapter.buf
        = listWrite w.writer_adapter.buf
            (w.writer_adapter.start + w.writer_adapter.cursor) (encodeAll ps) ∧
      (w.runWrites ps).writer_adapter.start = w.writer_adapter.start ∧
      (w.runWrites ps).writer_adapter.cursor
        = w.writer_adapter.cursor + sumWidths ps := by
  induction ps with
  | nil =>
      intro w _
      simp [ConstWriter.runWrites, encodeAll_nil, listWrite_nil, sumWidths_nil]
  | cons p ps ih =>
      intro w hpos
      simp only [ConstWriter.runWrites]
      have hb : (w.writePrim p).writer_adapter.buf
          = listWrite w.writer_adapter.buf
              (w.writer_adapter.start + w.writer_adapter.cursor) (encodePrim p) := rfl
      have hs : (w.writePrim p).writer_adapter.start = w.writer_adapter.start := rfl
      have hc : (w.writePrim p).writer_adapter.cursor
          = w.writer_adapter.cursor + (encodePrim p).length := rfl
      have hpos' : (w.writePrim p).writer_adapter.start + (w.writePrim p).writer_adapter.cursor
          ≤ (w.writePrim p).writer_adapter.buf.length := by
        rw [hb, hs, hc, ← Nat.add_assoc]
        exact listWrite_length_ge _ _ _ hpos
      obtain ⟨ihb, ihs, ihc⟩ := ih (w.writePrim p) hpos'
      refine ⟨?_, by rw [ihs, hs], ?_⟩
      · rw [ihb, hb, hs, hc, ← Nat.add_assoc, listWrite_append _ _ _ _ hpos,
      ← encodeAll_cons]
      · rw [ihc, hc, encodePrim_length, sumWidths_cons]
        omega

theorem adapterWrite_slice (a : SliceWriterAdapter) (v : List Nat) :
    (ConstWriterAdapter.write a v : SliceWriterAdapter) = a.write v := rfl

theorem adapterGrow_slice (a : SliceWriterAdapter) (M : Nat) :
    (ConstWriterAdapter.grow a M : Except String SliceWriterAdapter) = a.grow M := rfl

theorem adapterWrite_vec (a : VecWriterAdapter) (v : List Nat) :
    (ConstWriterAdapter.write a v : VecWriterAdapter) = a.write v := rfl

theorem adapterGrow_vec (a : VecWriterAdapter) (M : Nat) :
    (ConstWriterAdapter.grow a M : Except String VecWriterAdapter) = .ok a := rfl

theorem convert_vec (w : ConstWriter VecWriterAdapter) (M : Nat) :
    w.convert M = .ok { N := M, writer_adapter := w.writer_adapter } := by
  unfold ConstWriter.convert
  split <;> rfl

theorem runSteps_vec (ss : List Step) :
    ∀ w : ConstWriter VecWriterAdapter, ∃ w',
      runSteps w ss = .ok w' ∧
      w'.writer_adapter.content = w.writer_adapter.content ∧
      w'.writer_adapter.written
        = w.writer_adapter.written ++ encodeAll (writesOf ss) := by
  induction ss with
  | nil =>
      intro w
      exact ⟨w, rfl, rfl, by simp [writesOf, encodeAll_nil]⟩
  | cons s ss ih =>
      intro w
      cases s with
      | wr p =>
          obtain ⟨w', h1, h2, h3⟩ := ih (w.writePrim p)
          refine ⟨w', h1, h2.trans rfl, ?_⟩
          rw [h3]
          simp [ConstWriter.writePrim, ConstWriter.writeBytes, ConstWriterAdapter.write,
            VecWriterAdapter.write, writesOf, encodeAll_cons, List.append_assoc]
      | conv M =>
          obtain ⟨w', h1, h2, h3⟩ := ih ⟨M, w.writer_adapter⟩
          refine ⟨w', ?_, h2, h3⟩
          simp only [runSteps, convert_vec]
          exact h1

theorem runSteps_slice (ss : List Step) :
    ∀ w : ConstWriter SliceWriterAdapter,
      w.writer_adapter.start + w.writer_adapter.cursor + w.N
        ≤ w.writer_adapter.buf.length →
      wellTyped w.N ss = true →
      ∀ w', runSteps w ss = .ok w' →
        w'.writer_adapter.buf
          = listWrite w.writer_adapter.buf
              (w.writer_adapter.start + w.writer_adapter.cursor)
              (encodeAll (writesOf ss)) ∧
        w'.writer_adapter.start = w.writer_adapter.start ∧
        w'.writer_adapter.cursor
          = w.writer_adapter.cursor + sumWidths (writesOf ss) := by
  induction ss with
  | nil =>
      intro w _ _ w' h
      have hw : w = w' := Except.ok.inj h
      subst hw
      simp [writesOf, encodeAll_nil, listWrite_nil, sumWidths_nil]
  | cons s ss ih =>
      intro w hinv hwt w' h
      obtain ⟨N0, buf0, start0, cur0⟩ := w
      dsimp only at hinv hwt h ⊢
      cases s with
      | wr p =>
          simp only [wellTyped, Bool.and_eq_true, decide_eq_true_eq] at hwt
          obtain ⟨hw1, hw2⟩ := hwt
          have hred : ConstWriter.writePrim
              (⟨N0, ⟨buf0, start0, cur0⟩⟩ : ConstWriter SliceWriterAdapter) p
              = ⟨N0 - p.width,
                  ⟨listWrite buf0 (start0 + cur0) (encodePrim p),
                    start0, cur0 + p.width⟩⟩ := by
            simp [ConstWriter.writePrim, ConstWriter.writeBytes, adapterWrite_slice,
              SliceWriterAdapter.write, encodePrim_length]
          simp only [runSteps, hred] at h
          have hlen : (listWrite buf0 (start0 + cur0) (encodePrim p)).length
              = buf0.length := by
            apply listWrite_length
            rw [encodePrim_length]
            omega
          have hinv' : start0 + (cur0 + p.width) + (N0 - p.width)
              ≤ (listWrite buf0 (start0 + cur0) (encodePrim p)).length := by
            rw [hlen]
            omega
          obtain ⟨ihb, ihs, ihc⟩ := ih ⟨N0 - p.width,
            ⟨listWrite buf0 (start0 + cur0) (encodePrim p), start0, cur0 + p.width⟩⟩
            hinv' hw2 w' h
          dsimp only at ihb ihs ihc
          have hpos : start0 + (cur0 + p.width)
              = (start0 + cur0) + (encodePrim p).length := by
            rw [encodePrim_length]
            omega
          refine ⟨?_, ihs, ?_⟩
          · rw [ihb, hpos, listWrite_append _ _ _ _ (by omega), ← encodeAll_cons]
            rfl
          · show _ = cur0 + sumWidths (p :: writesOf ss)
            rw [ihc, sumWidths_cons]
            omega
      | conv M =>
          have hwt' : wellTyped M ss = true := hwt
          simp only [runSteps] at h
          by_cases hM : M ≤ N0
          · rw [ConstWriter.convert, if_pos hM] at h
            have hinv' : start0 + cur0 + M ≤ buf0.length := by omega
            exact ih ⟨M, ⟨buf0, start0, cur0⟩⟩ hinv' hwt' w' h
          · rw [ConstWriter.convert] at h
            dsimp only at h
            rw [if_neg hM, adapterGrow_slice, SliceWriterAdapter.grow] at h
            by_cases hg : M ≤ (buf0.length - start0) - cur0
            · rw [if_pos hg] at h
              have hinv' : start0 + cur0 + M ≤ buf0.length := by omega
              exact ih ⟨M, ⟨buf0, start0, cur0⟩⟩ hinv' hwt' w' h
            · rw [if_neg hg] at h
              exact absurd h (by simp [Except.map, Except.bind])

theorem sliceConstWriter_ok (N : Nat) (buf : List Nat) (start : Nat)
    (h : N ≤ buf.length - start) :
    sliceConstWriter N buf start
      = .ok ⟨N, ⟨buf, start, 0⟩⟩ := by
  unfold sliceConstWriter SliceWriterAdapter.new
  rw [if_pos (by omega : buf.length - start ≥ N)]
  rfl

/-! ## The claims -/

/-- C1: for every sequence of primitive writes (any width and either
endianness, two's-complement for signed values) through a `ConstWriter` whose
capacity `N` is at least the sum of the widths, the bytes deposited in the
backing store equal the concatenation of each value's byte representation in
its declared ordering, in call order, with no padding or prefixes — both for
the growable (Vec) store and for the bounded (slice) store. -/
theorem spec_c1_primitive_writes_concatenate (N : Nat) (ps : List PrimWrite)
    (hN : sumWidths ps ≤ N) :
    (∀ init : List Nat,
      VecWriterAdapter.release
          ((vecConstWriter N init).runWrites ps).writer_adapter
        = init ++ encodeAll ps) ∧
    (∀ buf : List Nat, N ≤ buf.length →
      ∀ w : ConstWriter SliceWriterAdapter,
        sliceConstWriter N buf 0 = .ok w →
        ((w.runWrites ps).writer_adapter.buf).take (sumWidths ps)
          = encodeAll ps) := by
  constructor
  · intro init
    obtain ⟨h1, h2⟩ := runWrites_vec ps (vecConstWriter N init)
    show ((vecConstWriter N init).runWrites ps).writer_adapter.content
        ++ ((vecConstWriter N init).runWrites ps).writer_adapter.written
      = init ++ encodeAll ps
    rw [h1, h2]
    rfl
  · intro buf hb w hw
    rw [sliceConstWriter_ok N buf 0 (by omega)] at hw
    have hww := Except.ok.inj hw
    subst hww
    obtain ⟨hb', _, _⟩ :=
      runWrites_slice ps ⟨N, ⟨buf, 0, 0⟩⟩ (by simp)
    dsimp only at hb'
    rw [hb', ← encodeAll_length ps]
    have := listWrite_take_out buf (encodeAll ps) 0 (by simp)
    simpa using this

/-- Witness for C1: writing `u32_le 0x04050607` then `u16_le 0x0203` into a
fresh writer of capacity 6 deposits `[07,06,05,04,03,02]`, in the vec store
and in a 6-byte slice store. -/
theorem spec_c1_witness :
    VecWriterAdapter.release
        ((vecConstWriter 6 []).runWrites
          [⟨4, .le, 0x04050607⟩, ⟨2, .le, 0x0203⟩]).writer_adapter
      = [0x07, 0x06, 0x05, 0x04, 0x03, 0x02] := by
  have h := (spec_c1_primitive_writes_concatenate 6
    [⟨4, .le, 0x04050607⟩, ⟨2, .le, 0x0203⟩] (by decide)).1 []
  exact h.trans (by decide)

/-- C2: after any chain of writes whose total width fits the capacity,
`remaining()` returns exactly the starting capacity minus the sum of the
written widths; `remaining` is the pure projection of the capacity parameter
(it takes the handle by shared reference and only returns `N`). -/
theorem spec_c2_remaining_conserved {T : Type} [ConstWriterAdapter T]
    (w : ConstWriter T) (ps : List PrimWrite)
    (h : sumWidths ps ≤ w.remaining) :
    (w.runWrites ps).remaining = w.remaining - sumWidths ps ∧
    w.remaining = w.N :=
  ⟨runWrites_N ps w, rfl⟩

/-- Witness for C2: a capacity-6 vec writer after a 4-byte and a 2-byte write
has `remaining() = 0`. -/
theorem spec_c2_witness :
    ((vecConstWriter 6 []).runWrites
        [⟨4, .le, 7⟩, ⟨2, .le, 8⟩]).remaining
      = (vecConstWriter 6 []).remaining
        - sumWidths [⟨4, .le, 7⟩, ⟨2, .le, 8⟩] :=
  (spec_c2_remaining_conserved (vecConstWriter 6 [])
    [⟨4, .le, 7⟩, ⟨2, .le, 8⟩] (by decide)).1

/-- C3: for the growable (Vec) store, release sets the container's logical
length to exactly cursor − start, i.e. the initial length plus the bytes
actually written — never more, never less, independent of the reserved
capacity (reservation has no logical effect in the model, mirroring
`Vec::reserve`), and the visible content is exactly the initial content
followed by the written bytes. -/
theorem spec_c3_vec_commit_exact (N : Nat) (init : List Nat)
    (ps : List PrimWrite) (h : sumWidths ps ≤ N) :
    VecWriterAdapter.release
        ((vecConstWriter N init).runWrites ps).writer_adapter
      = init ++ encodeAll ps ∧
    (VecWriterAdapter.release
        ((vecConstWriter N init).runWrites ps).writer_adapter).length
      = init.length + sumWidths ps := by
  obtain ⟨h1, h2⟩ := runWrites_vec ps (vecConstWriter N init)
  constructor
  · show ((vecConstWriter N init).runWrites ps).writer_adapter.content
        ++ ((vecConstWriter N init).runWrites ps).writer_adapter.written
      = init ++ encodeAll ps
    rw [h1, h2]
    rfl
  · show (((vecConstWriter N init).runWrites ps).writer_adapter.content
        ++ ((vecConstWriter N init).runWrites ps).writer_adapter.written).length
      = init.length + sumWidths ps
    rw [h1, h2]
    simp [vecConstWriter, VecWriterAdapter.mkFrom, encodeAll_length]

/-- Witness for C3: an empty vec with a capacity-5 writer that writes exactly
5 bytes has logical length exactly 5 after release, containing those bytes. -/
theorem spec_c3_witness :
    VecWriterAdapter.release
        ((vecConstWriter 5 []).runWrites
          [⟨4, .le, 123⟩, ⟨1, .le, 1⟩]).writer_adapter
      = [123, 0, 0, 0, 1] ∧
    (VecWriterAdapter.release
        ((vecConstWriter 5 []).runWrites
          [⟨4, .le, 123⟩, ⟨1, .le, 1⟩]).writer_adapter).length = 5 := by
  have h := spec_c3_vec_commit_exact 5 [] [⟨4, .le, 123⟩, ⟨1, .le, 1⟩] (by decide)
  exact ⟨h.1.trans (by decide), h.2.trans (by decide)⟩

/-- C4: for the bounded (slice) store, construction over a region shorter than
`N` fails with the panic message reporting available vs. requested counts and
touches no byte (a successful construction returns the region verbatim with
cursor 0, and the failing branch performs no write at all); extension with
fewer than `M` bytes remaining past the cursor fails likewise with both
counts, and a successful extension returns the adapter unchanged — never a
truncated or partial write. -/
theorem spec_c4_bounded_store_rejection (N M : Nat) (buf : List Nat)
    (start : Nat) (a : SliceWriterAdapter) :
    (buf.length - start < N →
      SliceWriterAdapter.new N buf start
        = .error s!"slice too short: {buf.length - start} < {N}") ∧
    (N ≤ buf.length - start →
      SliceWriterAdapter.new N buf start = .ok ⟨buf, start, 0⟩) ∧
    ((a.buf.length - a.start) - a.cursor < M →
      a.grow M
        = .error
            s!"remaining slice too short to grow: {(a.buf.length - a.start) - a.cursor} < {M}") ∧
    (M ≤ (a.buf.length - a.start) - a.cursor → a.grow M = .ok a) := by
  refine ⟨fun h => ?_, fun h => ?_, fun h => ?_, fun h => ?_⟩
  · unfold SliceWriterAdapter.new
    rw [if_neg (by omega)]
  · unfold SliceWriterAdapter.new
    rw [if_pos (by omega)]
  · unfold SliceWriterAdapter.grow
    rw [if_neg (by omega)]
  · unfold SliceWriterAdapter.grow
    rw [if_pos (by omega)]

/-- Witness for C4: constructing for 10 bytes over a 3-byte region fails with
the counts in the message; growing by 4 with 1 byte left fails likewise; the
in-bounds cases succeed without touching anything. -/
theorem spec_c4_witness :
    SliceWriterAdapter.new 10 [0, 0, 0] 0
      = .error "slice too short: 3 < 10" ∧
    SliceWriterAdapter.new 3 [0, 0, 0] 0 = .ok ⟨[0, 0, 0], 0, 0⟩ ∧
    SliceWriterAdapter.grow ⟨[0, 0], 0, 1⟩ 4
      = .error "remaining slice too short to grow: 1 < 4" ∧
    SliceWriterAdapter.grow ⟨[0, 0], 0, 1⟩ 1 = .ok ⟨[0, 0], 0, 1⟩ := by
  have h1 := (spec_c4_bounded_store_rejection 10 4 [0, 0, 0] 0 ⟨[0, 0], 0, 1⟩).1
    (by decide)
  have h2 := (spec_c4_bounded_store_rejection 3 4 [0, 0, 0] 0 ⟨[0, 0], 0, 1⟩).2.1
    (by decide)
  have h3 := (spec_c4_bounded_store_rejection 10 4 [0, 0, 0] 0 ⟨[0, 0], 0, 1⟩).2.2.1
    (by decide)
  have h4 := (spec_c4_bounded_store_rejection 10 1 [0, 0, 0] 0 ⟨[0, 0], 0, 1⟩).2.2.2
    (by decide)
  exact ⟨h1.trans (congrArg Except.error (by decide)), h2,
    h3.trans (congrArg Except.error (by decide)), h4⟩

/-- C5: `convert` from capacity `N` to any `M ≤ N` (including `M = 0` and
`M = N`) is a pure relabeling: it succeeds unconditionally and returns the
handle with the same adapter value — the backing store is neither read nor
mutated, the written contents and the cursor are untouched. Holds for every
adapter (both backing stores). -/
theorem spec_c5_shrink_is_free {T : Type} [ConstWriterAdapter T]
    (w : ConstWriter T) (M : Nat) (h : M ≤ w.N) :
    w.convert M = .ok { N := M, writer_adapter := w.writer_adapter } := by
  unfold ConstWriter.convert
  rw [if_pos h]

/-- Witness for C5: shrinking a capacity-5 slice writer (2 bytes already
written) to 0 relabels the capacity and leaves the adapter untouched. -/
theorem spec_c5_witness :
    (⟨5, ⟨[1, 2, 3, 4, 5, 6, 7], 0, 2⟩⟩ :
        ConstWriter SliceWriterAdapter).convert 0
      = .ok ⟨0, ⟨[1, 2, 3, 4, 5, 6, 7], 0, 2⟩⟩ :=
  spec_c5_shrink_is_free
    (⟨5, ⟨[1, 2, 3, 4, 5, 6, 7], 0, 2⟩⟩ : ConstWriter SliceWriterAdapter) 0
    (by decide)

/-- C6: for the growable (Vec) store, a capacity-5 writer that writes 5
bytes, converts to capacity 10, and writes 5 more bytes yields after release
a store of logical length 10 containing all 10 bytes in write order (the
reservation done by `grow` has no logical effect, so the result is
independent of any relocation). -/
theorem spec_c6_vec_grow_then_write (ps1 ps2 : List PrimWrite)
    (h1 : sumWidths ps1 = 5) (h2 : sumWidths ps2 = 5) :
    ∃ w2 : ConstWriter VecWriterAdapter,
      ((vecConstWriter 5 []).runWrites ps1).convert 10 = .ok w2 ∧
      VecWriterAdapter.release (w2.runWrites ps2).writer_adapter
        = encodeAll ps1 ++ encodeAll ps2 ∧
      (VecWriterAdapter.release (w2.runWrites ps2).writer_adapter).length
        = 10 := by
  obtain ⟨hc1, hw1⟩ := runWrites_vec ps1 (vecConstWriter 5 [])
  obtain ⟨hc2, hw2⟩ := runWrites_vec ps2
    (⟨10, ((vecConstWriter 5 []).runWrites ps1).writer_adapter⟩ :
      ConstWriter VecWriterAdapter)
  refine ⟨_, convert_vec _ 10, ?_, ?_⟩
  · show ((⟨10, ((vecConstWriter 5 []).runWrites ps1).writer_adapter⟩ :
        ConstWriter VecWriterAdapter).runWrites ps2).writer_adapter.content
      ++ ((⟨10, ((vecConstWriter 5 []).runWrites ps1).writer_adapter⟩ :
        ConstWriter VecWriterAdapter).runWrites ps2).writer_adapter.written
      = encodeAll ps1 ++ encodeAll ps2
    rw [hc2, hw2]
    show ((vecConstWriter 5 []).runWrites ps1).writer_adapter.content
        ++ (((vecConstWriter 5 []).runWrites ps1).writer_adapter.written
          ++ encodeAll ps2)
      = encodeAll ps1 ++ encodeAll ps2
    rw [hc1, hw1]
    rfl
  · show (((⟨10, ((vecConstWriter 5 []).runWrites ps1).writer_adapter⟩ :
        ConstWriter VecWriterAdapter).runWrites ps2).writer_adapter.content
      ++ ((⟨10, ((vecConstWriter 5 []).runWrites ps1).writer_adapter⟩ :
        ConstWriter VecWriterAdapter).runWrites ps2).writer_adapter.written).length
      = 10
    rw [hc2, hw2]
    show (((vecConstWriter 5 []).runWrites ps1).writer_adapter.content
        ++ (((vecConstWriter 5 []).runWrites ps1).writer_adapter.written
          ++ encodeAll ps2)).length = 10
    rw [hc1, hw1]
    simp [encodeAll_length, h1, h2, vecConstWriter, VecWriterAdapter.mkFrom]

/-- Witness for C6: starting empty, writing `u32_le 123` then `u8 1`,
converting to 10, then writing `u32_le 124` then `u8 24` yields exactly
`[123,0,0,0,1,124,0,0,0,24]`. -/
theorem spec_c6_witness :
    ∃ w2 : ConstWriter VecWriterAdapter,
      ((vecConstWriter 5 []).runWrites
          [⟨4, .le, 123⟩, ⟨1, .le, 1⟩]).convert 10 = .ok w2 ∧
      VecWriterAdapter.release
          (w2.runWrites [⟨4, .le, 124⟩, ⟨1, .le, 24⟩]).writer_adapter
        = [123, 0, 0, 0, 1, 124, 0, 0, 0, 24] ∧
      (VecWriterAdapter.release
          (w2.runWrites [⟨4, .le, 124⟩, ⟨1, .le, 24⟩]).writer_adapter).length
        = 10 := by
  obtain ⟨w2, ha, hb, hc⟩ := spec_c6_vec_grow_then_write
    [⟨4, .le, 123⟩, ⟨1, .le, 1⟩] [⟨4, .le, 124⟩, ⟨1, .le, 24⟩]
    (by decide) (by decide)
  exact ⟨w2, ha, hb.trans (by decide), hc⟩

/-- C7: for the bounded (slice) store, release advances the wrapped window by
exactly the number of bytes written — its start moves forward by the total
written width, its length shrinks by the same amount — while the underlying
fixed region keeps its full extent. -/
theorem spec_c7_slice_release_advances_window (N : Nat) (buf : List Nat)
    (start : Nat) (ps : List PrimWrite) (hst : start ≤ buf.length)
    (hN : N ≤ buf.length - start) (hs : sumWidths ps ≤ N)
    (w : ConstWriter SliceWriterAdapter)
    (hw : sliceConstWriter N buf start = .ok w) :
    ((w.runWrites ps).writer_adapter.release).2 = start + sumWidths ps ∧
    ((w.runWrites ps).writer_adapter.release).1.length = buf.length ∧
    ((w.runWrites ps).writer_adapter.release).1.length
        - ((w.runWrites ps).writer_adapter.release).2
      = (buf.length - start) - sumWidths ps := by
  rw [sliceConstWriter_ok N buf start hN] at hw
  have hww := Except.ok.inj hw
  subst hww
  obtain ⟨hb, hst', hc⟩ := runWrites_slice ps ⟨N, ⟨buf, start, 0⟩⟩
    (by dsimp only; omega)
  dsimp only at hb hst' hc
  have hlen : ((⟨N, ⟨buf, start, 0⟩⟩ :
      ConstWriter SliceWriterAdapter).runWrites ps).writer_adapter.buf.length
      = buf.length := by
    rw [hb]
    apply listWrite_length
    rw [encodeAll_length]
    omega
  have hrel2 : (((⟨N, ⟨buf, start, 0⟩⟩ :
      ConstWriter SliceWriterAdapter).runWrites ps).writer_adapter.release).2
      = start + sumWidths ps := by
    show ((⟨N, ⟨buf, start, 0⟩⟩ :
        ConstWriter SliceWriterAdapter).runWrites ps).writer_adapter.start
      + ((⟨N, ⟨buf, start, 0⟩⟩ :
        ConstWriter SliceWriterAdapter).runWrites ps).writer_adapter.cursor
      = start + sumWidths ps
    rw [hst', hc]
    omega
  refine ⟨hrel2, hlen, ?_⟩
  rw [hrel2]
  show ((⟨N, ⟨buf, start, 0⟩⟩ :
      ConstWriter SliceWriterAdapter).runWrites ps).writer_adapter.buf.length
      - _ = _
  rw [hlen]
  omega

/-- Witness for C7: a capacity-3 writer over the window starting at offset 1
of a 5-byte region, after one 2-byte write, releases with the window start
advanced to 3, the region still 5 bytes long, and the window 2 bytes shorter
than it started. -/
theorem spec_c7_witness :
    (((⟨3, ⟨[9, 9, 9, 9, 9], 1, 0⟩⟩ :
        ConstWriter SliceWriterAdapter).runWrites
          [⟨2, .le, 0x0203⟩]).writer_adapter.release).2 = 3 ∧
    (((⟨3, ⟨[9, 9, 9, 9, 9], 1, 0⟩⟩ :
        ConstWriter SliceWriterAdapter).runWrites
          [⟨2, .le, 0x0203⟩]).writer_adapter.release).1.length = 5 ∧
    (((⟨3, ⟨[9, 9, 9, 9, 9], 1, 0⟩⟩ :
        ConstWriter SliceWriterAdapter).runWrites
          [⟨2, .le, 0x0203⟩]).writer_adapter.release).1.length
      - (((⟨3, ⟨[9, 9, 9, 9, 9], 1, 0⟩⟩ :
        ConstWriter SliceWriterAdapter).runWrites
          [⟨2, .le, 0x0203⟩]).writer_adapter.release).2 = 2 := by
  have h := spec_c7_slice_release_advances_window 3 [9, 9, 9, 9, 9] 1
    [⟨2, .le, 0x0203⟩] (by decide) (by decide) (by decide)
    ⟨3, ⟨[9, 9, 9, 9, 9], 1, 0⟩⟩ rfl
  exact ⟨h.1.trans (by decide), h.2.1.trans (by decide),
    (h.2.2).trans (by decide)⟩

/-- C8: the final byte layout depends only on the sequence of writes, not on
where `convert` boundaries are inserted: two chains over the same bounded
region with the same write projection (any mix of shrinking and successful
growing converts) produce identical final bytes, and likewise the two
growable-store runs commit identical contents. -/
theorem spec_c8_layout_independent_of_convert_splits
    (buf init : List Nat) (N1 N2 : Nat) (ss1 ss2 : List Step)
    (h1 : N1 ≤ buf.length) (h2 : N2 ≤ buf.length)
    (hwt1 : wellTyped N1 ss1 = true) (hwt2 : wellTyped N2 ss2 = true)
    (hsame : writesOf ss1 = writesOf ss2)
    (w1 w2 w1' w2' : ConstWriter SliceWriterAdapter)
    (hw1 : sliceConstWriter N1 buf 0 = .ok w1)
    (hw2 : sliceConstWriter N2 buf 0 = .ok w2)
    (hr1 : runSteps w1 ss1 = .ok w1')
    (hr2 : runSteps w2 ss2 = .ok w2') :
    w1'.writer_adapter.buf = w2'.writer_adapter.buf ∧
    (runSteps (vecConstWriter N1 init) ss1).map
        (fun w => VecWriterAdapter.release w.writer_adapter)
      = (runSteps (vecConstWriter N2 init) ss2).map
        (fun w => VecWriterAdapter.release w.writer_adapter) := by
  constructor
  · rw [sliceConstWriter_ok N1 buf 0 (by omega)] at hw1
    rw [sliceConstWriter_ok N2 buf 0 (by omega)] at hw2
    have e1 := Except.ok.inj hw1
    have e2 := Except.ok.inj hw2
    subst e1
    subst e2
    obtain ⟨hb1, _, _⟩ := runSteps_slice ss1 ⟨N1, ⟨buf, 0, 0⟩⟩
      (by dsimp only; omega) hwt1 w1' hr1
    obtain ⟨hb2, _, _⟩ := runSteps_slice ss2 ⟨N2, ⟨buf, 0, 0⟩⟩
      (by dsimp only; omega) hwt2 w2' hr2
    dsimp only at hb1 hb2
    rw [hb1, hb2, hsame]
  · obtain ⟨v1, hv1, hvc1, hvw1⟩ := runSteps_vec ss1 (vecConstWriter N1 init)
    obtain ⟨v2, hv2, hvc2, hvw2⟩ := runSteps_vec ss2 (vecConstWriter N2 init)
    rw [hv1, hv2]
    show Except.ok (v1.writer_adapter.content ++ v1.writer_adapter.written)
      = Except.ok (v2.writer_adapter.content ++ v2.writer_adapter.written)
    rw [hvc1, hvw1, hvc2, hvw2, hsame]
    rfl

/-- Witness for C8: writing `u16_le 0x0203` then `u8 7` over a 6-byte region,
once as a straight capacity-6 chain and once as a capacity-3 chain with a
shrinking `convert` to 1 inserted between the writes, yields the same final
region bytes, and the two growable-store runs commit the same contents. -/
theorem spec_c8_witness :
    (⟨3, ⟨[3, 2, 7, 9, 9, 9], 0, 3⟩⟩ :
        ConstWriter SliceWriterAdapter).writer_adapter.buf
      = (⟨0, ⟨[3, 2, 7, 9, 9, 9], 0, 3⟩⟩ :
        ConstWriter SliceWriterAdapter).writer_adapter.buf ∧
    (runSteps (vecConstWriter 6 [5])
        [.wr ⟨2, .le, 0x0203⟩, .wr ⟨1, .le, 7⟩]).map
        (fun w => VecWriterAdapter.release w.writer_adapter)
      = (runSteps (vecConstWriter 3 [5])
        [.wr ⟨2, .le, 0x0203⟩, .conv 1, .wr ⟨1, .le, 7⟩]).map
        (fun w => VecWriterAdapter.release w.writer_adapter) :=
  spec_c8_layout_independent_of_convert_splits
    [9, 9, 9, 9, 9, 9] [5] 6 3
    [.wr ⟨2, .le, 0x0203⟩, .wr ⟨1, .le, 7⟩]
    [.wr ⟨2, .le, 0x0203⟩, .conv 1, .wr ⟨1, .le, 7⟩]
    (by decide) (by decide) (by decide) (by decide) (by decide)
    ⟨6, ⟨[9, 9, 9, 9, 9, 9], 0, 0⟩⟩ ⟨3, ⟨[9, 9, 9, 9, 9, 9], 0, 0⟩⟩
    ⟨3, ⟨[3, 2, 7, 9, 9, 9], 0, 3⟩⟩ ⟨0, ⟨[3, 2, 7, 9, 9, 9], 0, 3⟩⟩
    rfl rfl rfl rfl

/-- C9: every primitive write of width `w` and every `write_slice` of a
length-`M` block carries the precondition that the capacity parameter is
large enough, checked during const evaluation of the result type
`ConstWriter<T, {N - w}>`: the subtraction const-evaluates (the program
builds) exactly when the width fits, there is no runtime fallback, and an
accepted write always deposits its full declared width (the encoded value has
exactly `width` bytes, so no short write can occur). -/
theorem spec_c9_build_time_capacity_check (N M : Nat) (p : PrimWrite) :
    (constSub N p.width = some (N - p.width) ↔ p.width ≤ N) ∧
    (constSub N M = some (N - M) ↔ M ≤ N) ∧
    ((constSub N p.width).isSome ↔ p.width ≤ N) ∧
    (encodePrim p).length = p.width := by
  refine ⟨?_, ?_, ?_, encodePrim_length p⟩
  · by_cases h : p.width ≤ N <;> simp [constSub, h]
  · by_cases h : M ≤ N <;> simp [constSub, h]
  · by_cases h : p.width ≤ N <;> simp [constSub, h]

/-- Witness for C9: a `write_u64` (width 8) on a capacity-4 handle does not
const-evaluate (rejected at build time), while a 9-byte `write_slice` on a
capacity-4 handle is rejected likewise; the width-8 encoding is 8 bytes. -/
theorem spec_c9_witness :
    (constSub 4 (PrimWrite.mk 8 .le 111).width
        = some (4 - (PrimWrite.mk 8 .le 111).width)
      ↔ (PrimWrite.mk 8 .le 111).width ≤ 4) ∧
    (constSub 4 9 = some (4 - 9) ↔ 9 ≤ 4) ∧
    ((constSub 4 (PrimWrite.mk 8 .le 111).width).isSome
      ↔ (PrimWrite.mk 8 .le 111).width ≤ 4) ∧
    (encodePrim (PrimWrite.mk 8 .le 111)).length
      = (PrimWrite.mk 8 .le 111).width :=
  spec_c9_build_time_capacity_check 4 9 ⟨8, .le, 111⟩

/-- C10: frame property of the bounded (slice) store: a writer chain of
capacity `N` over the window at `start` that writes `S ≤ N` bytes modifies
only the first `S` bytes of that window; every byte at window offset `S` or
beyond, and every byte before the window, keeps its value, the region keeps
its length, and release returns the region exactly as the writes left it
(any prefix of the chain is itself such a chain, so the property also holds
at every intermediate point). -/
theorem spec_c10_slice_frame (N : Nat) (buf : List Nat) (start : Nat)
    (ps : List PrimWrite) (hst : start ≤ buf.length)
    (hN : N ≤ buf.length - start) (hs : sumWidths ps ≤ N)
    (w : ConstWriter SliceWriterAdapter)
    (hw : sliceConstWriter N buf start = .ok w) :
    (w.runWrites ps).writer_adapter.buf.length = buf.length ∧
    ((w.runWrites ps).writer_adapter.buf).drop (start + sumWidths ps)
      = buf.drop (start + sumWidths ps) ∧
    ((w.runWrites ps).writer_adapter.buf).take start = buf.take start ∧
    ((w.runWrites ps).writer_adapter.release).1
      = (w.runWrites ps).writer_adapter.buf := by
  rw [sliceConstWriter_ok N buf start hN] at hw
  have hww := Except.ok.inj hw
  subst hww
  obtain ⟨hb, _, _⟩ := runWrites_slice ps ⟨N, ⟨buf, start, 0⟩⟩
    (by dsimp only; omega)
  dsimp only at hb
  rw [Nat.add_zero] at hb
  have hencl : (encodeAll ps).length = sumWidths ps := encodeAll_length ps
  refine ⟨?_, ?_, ?_, rfl⟩
  · rw [hb]
    apply listWrite_length
    omega
  · rw [hb]
    apply listWrite_drop_out _ _ _ _ hst
    omega
  · rw [hb]
    exact listWrite_frame_take _ _ _ _ (le_refl start) hst

/-- Witness for C10: a capacity-2 writer over the window at offset 1 of
`[9,9,9,9,9]` writing 2 bytes leaves the region length 5, the byte before the
window and the bytes at window offset 2 and beyond untouched. -/
theorem spec_c10_witness :
    ((⟨2, ⟨[9, 9, 9, 9, 9], 1, 0⟩⟩ :
        ConstWriter SliceWriterAdapter).runWrites
          [⟨2, .le, 0x0605⟩]).writer_adapter.buf.length = 5 ∧
    (((⟨2, ⟨[9, 9, 9, 9, 9], 1, 0⟩⟩ :
        ConstWriter SliceWriterAdapter).runWrites
          [⟨2, .le, 0x0605⟩]).writer_adapter.buf).drop 3 = [9, 9] ∧
    (((⟨2, ⟨[9, 9, 9, 9, 9], 1, 0⟩⟩ :
        ConstWriter SliceWriterAdapter).runWrites
          [⟨2, .le, 0x0605⟩]).writer_adapter.buf).take 1 = [9] := by
  have h := spec_c10_slice_frame 2 [9, 9, 9, 9, 9] 1 [⟨2, .le, 0x0605⟩]
    (by decide) (by decide) (by decide)
    ⟨2, ⟨[9, 9, 9, 9, 9], 1, 0⟩⟩ rfl
  exact ⟨h.1, h.2.1.trans (by decide), h.2.2.1.trans (by decide)⟩

end ConstWriterModel
